import Mathlib

/-!
Verification development for the taWeather run-log reconciliation pipeline.

The Python sources (`clouds.py`, `utils.py`, `main.py`, `data_part.py`) are
shallowly embedded: raw code strings become `List Char`, Python `int`
timestamps become `Int`, Python `float` weights become `ℚ`, Python dicts
become association lists with insert-or-update semantics, and fallible
operations return `Option`.
-/

namespace TaWeather

/-- Python `str.isdigit`-style test used by `int(c)` and the regex `\d`:
we model digits as the ASCII characters `'0'`-`'9'`. -/
def isDigitChar (c : Char) : Bool := '0' ≤ c && c ≤ '9'

/-- Whitespace characters matched by the regex class `\s`. -/
def isSpaceChar (c : Char) : Bool :=
  c = ' ' || c = '\t' || c = '\n' || c = '\r' || c = '\x0b' || c = '\x0c'

/-- Numeric value of a digit character. -/
def digitVal (c : Char) : Int := (c.toNat : Int) - ('0'.toNat : Int)

/-- Python `int(c)` applied to a single character: the digit value, or a
`ValueError` (modelled as `none`) on a non-digit. -/
def parseDigit (c : Char) : Option Int :=
  if isDigitChar c then some (digitVal c) else none

/-- Python `map(int, s)` over the characters of a string: all digit values,
or failure as soon as one character is not a digit. -/
def parseDigits : List Char → Option (List Int)
  | [] => some []
  | c :: cs =>
    match parseDigit c, parseDigits cs with
    | some d, some ds => some (d :: ds)
    | _, _ => none

/-- The `Clouds` dataclass of `clouds.py`: seven integer fields in the fixed
order north, east, south, west, overhead, thickness, haze. -/
structure Clouds where
  north : Int
  east : Int
  south : Int
  west : Int
  overhead : Int
  thickness : Int
  haze : Int
deriving DecidableEq

/-- `Clouds.to_list` (with `include_haze=True`, the default used throughout). -/
def Clouds.to_list (c : Clouds) : List Int :=
  [c.north, c.east, c.south, c.west, c.overhead, c.thickness, c.haze]

/-- `Clouds.from_string`: `cls(*map(int, weather_string))`.  Each character is
converted by `int` (`ValueError` on a non-digit) and the dataclass constructor
takes exactly 7 positional arguments (`TypeError` on any other arity); both
failure modes are `none`. -/
def Clouds.from_string (s : List Char) : Option Clouds :=
  match parseDigits s with
  | some [n, e, so, w, o, t, h] => some ⟨n, e, so, w, o, t, h⟩
  | _ => none

/-- Decimal `ROUND_HALF_UP` rounding to an integer: away from zero on ties. -/
def roundHalfUp (q : ℚ) : Int :=
  if 0 ≤ q then ⌊q + 1/2⌋ else -⌊-q + 1/2⌋

/-- The `average` comparison strategy of `Clouds.compare_clouds`:
round-half-up of the arithmetic mean. -/
def averageCmp (a b : Int) : Int := roundHalfUp (((a : ℚ) + (b : ℚ)) / 2)

/-- The `twavg` comparison strategy: round-half-up of
`(a*weight_second + b*weight_first) / (weight_first + weight_second)`. -/
def twavgCmp (weight_first weight_second : ℚ) (a b : Int) : Int :=
  roundHalfUp (((a : ℚ) * weight_second + (b : ℚ) * weight_first) /
    (weight_first + weight_second))

/-- The `match` comparison strategy: `second if second == first else 9`. -/
def matchCmp (a b : Int) : Int := if b = a then b else 9

/-- The `worse` comparison strategy: `max`. -/
def worseCmp (a b : Int) : Int := max a b

/-- The `latest` comparison strategy: always the second argument. -/
def latestCmp (a b : Int) : Int := b

/-- Field-wise application of a comparison strategy over the seven attributes,
in declaration order, as `cls(*(f(getattr(first, attr), getattr(second, attr)) ...))`. -/
def Clouds.compareWith (f : Int → Int → Int) (x y : Clouds) : Clouds :=
  ⟨f x.north y.north, f x.east y.east, f x.south y.south, f x.west y.west,
   f x.overhead y.overhead, f x.thickness y.thickness, f x.haze y.haze⟩

/-- `Clouds.compare_clouds`: dispatch on the algorithm name; an unknown name
raises `NotImplementedError`, modelled as `none`. -/
def Clouds.compare_clouds (first second : Clouds) (weight_first weight_second : ℚ)
    (algorithm : String) : Option Clouds :=
  if algorithm = "match" then some (Clouds.compareWith matchCmp first second)
  else if algorithm = "worse" then some (Clouds.compareWith worseCmp first second)
  else if algorithm = "average" then some (Clouds.compareWith averageCmp first second)
  else if algorithm = "latest" then some (Clouds.compareWith latestCmp first second)
  else if algorithm = "twavg" then
    some (Clouds.compareWith (twavgCmp weight_first weight_second) first second)
  else none

/-- All seven fields lie in the digit range `[0, 9]`. -/
def Clouds.inRange (c : Clouds) : Prop :=
  (0 ≤ c.north ∧ c.north ≤ 9) ∧ (0 ≤ c.east ∧ c.east ≤ 9) ∧
  (0 ≤ c.south ∧ c.south ≤ 9) ∧ (0 ≤ c.west ∧ c.west ≤ 9) ∧
  (0 ≤ c.overhead ∧ c.overhead ≤ 9) ∧ (0 ≤ c.thickness ∧ c.thickness ≤ 9) ∧
  (0 ≤ c.haze ∧ c.haze ≤ 9)

/-- Every field of `c` lies between the corresponding fields of `a` and `b`. -/
def fieldsBetween (a b c : Clouds) : Prop :=
  (min a.north b.north ≤ c.north ∧ c.north ≤ max a.north b.north) ∧
  (min a.east b.east ≤ c.east ∧ c.east ≤ max a.east b.east) ∧
  (min a.south b.south ≤ c.south ∧ c.south ≤ max a.south b.south) ∧
  (min a.west b.west ≤ c.west ∧ c.west ≤ max a.west b.west) ∧
  (min a.overhead b.overhead ≤ c.overhead ∧ c.overhead ≤ max a.overhead b.overhead) ∧
  (min a.thickness b.thickness ≤ c.thickness ∧ c.thickness ≤ max a.thickness b.thickness) ∧
  (min a.haze b.haze ≤ c.haze ∧ c.haze ≤ max a.haze b.haze)

/-- Every field of `c` equals the corresponding field of `b` or the sentinel 9. -/
def fieldsMatchOr9 (b c : Clouds) : Prop :=
  (c.north = b.north ∨ c.north = 9) ∧ (c.east = b.east ∨ c.east = 9) ∧
  (c.south = b.south ∨ c.south = 9) ∧ (c.west = b.west ∨ c.west = 9) ∧
  (c.overhead = b.overhead ∨ c.overhead = 9) ∧
  (c.thickness = b.thickness ∨ c.thickness = 9) ∧ (c.haze = b.haze ∨ c.haze = 9)

/-! Helper lemmas about parsing. -/

theorem parseDigits_isSome_iff (s : List Char) :
    (parseDigits s).isSome ↔ ∀ c ∈ s, isDigitChar c = true := by
  induction s with
  | nil => simp [parseDigits]
  | cons c cs ih =>
    constructor
    · intro h
      simp only [parseDigits] at h
      cases hd : parseDigit c with
      | none => rw [hd] at h; simp at h
      | some d =>
        cases hds : parseDigits cs with
        | none => rw [hd, hds] at h; simp at h
        | some ds =>
          intro x hx
          rcases List.mem_cons.mp hx with rfl | hx
          · by_contra hcx
            simp [parseDigit, hcx] at hd
          · exact (ih.mp (by rw [hds]; rfl)) x hx
    · intro h
      have hc := h c (List.mem_cons_self c cs)
      have hcs := ih.mpr (fun x hx => h x (List.mem_cons_of_mem c hx))
      have hpc : parseDigit c = some (digitVal c) := by simp [parseDigit, hc]
      simp only [parseDigits, hpc]
      cases hds : parseDigits cs with
      | none => rw [hds] at hcs; simp at hcs
      | some ds => simp

theorem parseDigits_length {s : List Char} {l : List Int}
    (h : parseDigits s = some l) : l.length = s.length := by
  induction s generalizing l with
  | nil => simp [parseDigits] at h; simp [← h]
  | cons c cs ih =>
    simp only [parseDigits] at h
    cases hd : parseDigit c with
    | none => rw [hd] at h; exact absurd h (by simp)
    | some d =>
      rw [hd] at h
      cases hds : parseDigits cs with
      | none => rw [hds] at h; exact absurd h (by simp)
      | some ds =>
        rw [hds] at h
        simp only [Option.some.injEq] at h
        subst h
        simp [ih hds]

/-- Claim C8: constructing a `Clouds` value from a raw string fails exactly
when the string does not have length 7 or contains a non-digit character, and
succeeds otherwise. -/
theorem from_string_isSome_iff (s : List Char) :
    (Clouds.from_string s).isSome ↔ (s.length = 7 ∧ ∀ c ∈ s, isDigitChar c = true) := by
  unfold Clouds.from_string
  cases hds : parseDigits s with
  | none =>
    have hnd : ¬ ∀ c ∈ s, isDigitChar c = true := by
      rw [← parseDigits_isSome_iff, hds]; simp
    simp [hnd]
  | some l =>
    have hd : ∀ c ∈ s, isDigitChar c = true := by
      rw [← parseDigits_isSome_iff, hds]; simp
    have hlen := parseDigits_length hds
    constructor
    · intro hs
      refine ⟨?_, hd⟩
      match l, hs with
      | [n, e, so, w, o, t, h], _ => rw [← hlen]; rfl
    · rintro ⟨h7, -⟩
      rw [h7] at hlen
      match l, hlen with
      | [n, e, so, w, o, t, h], _ => rfl

/-! Scalar range lemmas for the comparison strategies. -/

theorem roundHalfUp_bounds {m M : Int} {q : ℚ} (h0 : 0 ≤ q)
    (hm : (m : ℚ) ≤ q) (hM : q ≤ (M : ℚ)) :
    m ≤ roundHalfUp q ∧ roundHalfUp q ≤ M := by
  unfold roundHalfUp
  rw [if_pos h0]
  constructor
  · have : (m : ℚ) ≤ q + 1/2 := by linarith
    calc m = ⌊(m : ℚ)⌋ := (Int.floor_intCast m).symm
    _ ≤ ⌊q + 1/2⌋ := Int.floor_le_floor this
  · have : q + 1/2 < (M : ℚ) + 1 := by linarith
    have := Int.floor_lt.mpr (by push_cast; linarith : q + 1/2 < ((M + 1 : Int) : ℚ))
    omega

theorem averageCmp_between {a b : Int} (ha : 0 ≤ a) (hb : 0 ≤ b) :
    min a b ≤ averageCmp a b ∧ averageCmp a b ≤ max a b := by
  unfold averageCmp
  rcases le_total a b with h | h
  · have h1 : (0 : ℚ) ≤ ((a : ℚ) + (b : ℚ)) / 2 := by
      have : (0 : ℚ) ≤ (a : ℚ) := by exact_mod_cast ha
      have : (0 : ℚ) ≤ (b : ℚ) := by exact_mod_cast hb
      positivity
    have hq : (a : ℚ) ≤ b := by exact_mod_cast h
    have h2 : ((a : Int) : ℚ) ≤ ((a : ℚ) + (b : ℚ)) / 2 := by push_cast; linarith
    have h3 : ((a : ℚ) + (b : ℚ)) / 2 ≤ ((b : Int) : ℚ) := by push_cast; linarith
    have := roundHalfUp_bounds h1 h2 h3
    rw [min_eq_left h, max_eq_right h]
    exact this
  · have h1 : (0 : ℚ) ≤ ((a : ℚ) + (b : ℚ)) / 2 := by
      have : (0 : ℚ) ≤ (a : ℚ) := by exact_mod_cast ha
      have : (0 : ℚ) ≤ (b : ℚ) := by exact_mod_cast hb
      positivity
    have hq : (b : ℚ) ≤ a := by exact_mod_cast h
    have h2 : ((b : Int) : ℚ) ≤ ((a : ℚ) + (b : ℚ)) / 2 := by push_cast; linarith
    have h3 : ((a : ℚ) + (b : ℚ)) / 2 ≤ ((a : Int) : ℚ) := by push_cast; linarith
    have := roundHalfUp_bounds h1 h2 h3
    rw [min_eq_right h, max_eq_left h]
    exact this

theorem twavgCmp_between {a b : Int} {wf ws : ℚ} (hwf : 0 < wf) (hws : 0 < ws)
    (ha : 0 ≤ a) (hb : 0 ≤ b) :
    min a b ≤ twavgCmp wf ws a b ∧ twavgCmp wf ws a b ≤ max a b := by
  unfold twavgCmp
  have hsum : 0 < wf + ws := by linarith
  have haq : (0 : ℚ) ≤ (a : ℚ) := by exact_mod_cast ha
  have hbq : (0 : ℚ) ≤ (b : ℚ) := by exact_mod_cast hb
  have h0 : (0 : ℚ) ≤ ((a : ℚ) * ws + (b : ℚ) * wf) / (wf + ws) := by positivity
  rcases le_total a b with h | h
  · have hq : (a : ℚ) ≤ b := by exact_mod_cast h
    have h2 : ((a : Int) : ℚ) ≤ ((a : ℚ) * ws + (b : ℚ) * wf) / (wf + ws) := by
      rw [le_div_iff hsum]; push_cast; nlinarith
    have h3 : ((a : ℚ) * ws + (b : ℚ) * wf) / (wf + ws) ≤ ((b : Int) : ℚ) := by
      rw [div_le_iff hsum]; push_cast; nlinarith
    have := roundHalfUp_bounds h0 h2 h3
    rw [min_eq_left h, max_eq_right h]
    exact this
  · have hq : (b : ℚ) ≤ a := by exact_mod_cast h
    have h2 : ((b : Int) : ℚ) ≤ ((a : ℚ) * ws + (b : ℚ) * wf) / (wf + ws) := by
      rw [le_div_iff hsum]; push_cast; nlinarith
    have h3 : ((a : ℚ) * ws + (b : ℚ) * wf) / (wf + ws) ≤ ((a : Int) : ℚ) := by
      rw [div_le_iff hsum]; push_cast; nlinarith
    have := roundHalfUp_bounds h0 h2 h3
    rw [min_eq_right h, max_eq_left h]
    exact this

theorem compareWith_between {f : Int → Int → Int}
    (hf : ∀ x y : Int, 0 ≤ x → x ≤ 9 → 0 ≤ y → y ≤ 9 →
      min x y ≤ f x y ∧ f x y ≤ max x y)
    {a b : Clouds} (ha : a.inRange) (hb : b.inRange) :
    fieldsBetween a b (Clouds.compareWith f a b) ∧ (Clouds.compareWith f a b).inRange := by
  obtain ⟨⟨ha1, ha2⟩, ⟨ha3, ha4⟩, ⟨ha5, ha6⟩, ⟨ha7, ha8⟩, ⟨ha9, ha10⟩, ⟨ha11, ha12⟩, ha13, ha14⟩ := ha
  obtain ⟨⟨hb1, hb2⟩, ⟨hb3, hb4⟩, ⟨hb5, hb6⟩, ⟨hb7, hb8⟩, ⟨hb9, hb10⟩, ⟨hb11, hb12⟩, hb13, hb14⟩ := hb
  have h1 := hf a.north b.north ha1 ha2 hb1 hb2
  have h2 := hf a.east b.east ha3 ha4 hb3 hb4
  have h3 := hf a.south b.south ha5 ha6 hb5 hb6
  have h4 := hf a.west b.west ha7 ha8 hb7 hb8
  have h5 := hf a.overhead b.overhead ha9 ha10 hb9 hb10
  have h6 := hf a.thickness b.thickness ha11 ha12 hb11 hb12
  have h7 := hf a.haze b.haze ha13 ha14 hb13 hb14
  refine ⟨⟨h1, h2, h3, h4, h5, h6, h7⟩, ?_⟩
  unfold Clouds.inRange Clouds.compareWith
  simp only
  refine ⟨⟨?_, ?_⟩, ⟨?_, ?_⟩, ⟨?_, ?_⟩, ⟨?_, ?_⟩, ⟨?_, ?_⟩, ⟨?_, ?_⟩, ?_, ?_⟩ <;> omega

/-- Claim C10: for operands whose seven fields lie in `[0, 9]` and positive
weights, each of the five comparison modes succeeds and returns a `Clouds`
value with every field in `[0, 9]`; `match` yields the second operand's field
or the sentinel 9, while `worse`, `average`, `latest` and `twavg` yield a
field between the two operand fields. -/
theorem compare_clouds_range (a b : Clouds) (wf ws : ℚ)
    (ha : a.inRange) (hb : b.inRange) (hwf : 0 < wf) (hws : 0 < ws) :
    (∃ c, Clouds.compare_clouds a b wf ws "match" = some c ∧ c.inRange ∧ fieldsMatchOr9 b c) ∧
    (∃ c, Clouds.compare_clouds a b wf ws "worse" = some c ∧ c.inRange ∧ fieldsBetween a b c) ∧
    (∃ c, Clouds.compare_clouds a b wf ws "average" = some c ∧ c.inRange ∧ fieldsBetween a b c) ∧
    (∃ c, Clouds.compare_clouds a b wf ws "latest" = some c ∧ c.inRange ∧ fieldsBetween a b c) ∧
    (∃ c, Clouds.compare_clouds a b wf ws "twavg" = some c ∧ c.inRange ∧
      fieldsBetween a b c) := by
  have hworse : ∀ x y : Int, 0 ≤ x → x ≤ 9 → 0 ≤ y → y ≤ 9 →
      min x y ≤ worseCmp x y ∧ worseCmp x y ≤ max x y := by
    intro x y _ _ _ _; unfold worseCmp; omega
  have hlatest : ∀ x y : Int, 0 ≤ x → x ≤ 9 → 0 ≤ y → y ≤ 9 →
      min x y ≤ latestCmp x y ∧ latestCmp x y ≤ max x y := by
    intro x y _ _ _ _; unfold latestCmp; omega
  have havg : ∀ x y : Int, 0 ≤ x → x ≤ 9 → 0 ≤ y → y ≤ 9 →
      min x y ≤ averageCmp x y ∧ averageCmp x y ≤ max x y := by
    intro x y hx _ hy _; exact averageCmp_between hx hy
  have htw : ∀ x y : Int, 0 ≤ x → x ≤ 9 → 0 ≤ y → y ≤ 9 →
      min x y ≤ twavgCmp wf ws x y ∧ twavgCmp wf ws x y ≤ max x y := by
    intro x y hx _ hy _; exact twavgCmp_between hwf hws hx hy
  refine ⟨⟨Clouds.compareWith matchCmp a b, by simp [Clouds.compare_clouds], ?_, ?_⟩,
    ⟨Clouds.compareWith worseCmp a b, by simp [Clouds.compare_clouds],
      (compareWith_between hworse ha hb).2, (compareWith_between hworse ha hb).1⟩,
    ⟨Clouds.compareWith averageCmp a b, by simp [Clouds.compare_clouds],
      (compareWith_between havg ha hb).2, (compareWith_between havg ha hb).1⟩,
    ⟨Clouds.compareWith latestCmp a b, by simp [Clouds.compare_clouds],
      (compareWith_between hlatest ha hb).2, (compareWith_between hlatest ha hb).1⟩,
    ⟨Clouds.compareWith (twavgCmp wf ws) a b, by simp [Clouds.compare_clouds],
      (compareWith_between htw ha hb).2, (compareWith_between htw ha hb).1⟩⟩
  · obtain ⟨⟨hb1, hb2⟩, ⟨hb3, hb4⟩, ⟨hb5, hb6⟩, ⟨hb7, hb8⟩, ⟨hb9, hb10⟩,
      ⟨hb11, hb12⟩, hb13, hb14⟩ := hb
    unfold Clouds.inRange Clouds.compareWith matchCmp
    simp only
    constructor <;> [skip; constructor] <;> [split <;> omega; split <;> omega;
      refine ⟨?_, ?_, ?_, ?_, ?_⟩ <;> constructor <;> split <;> omega]
  · unfold fieldsMatchOr9 Clouds.compareWith matchCmp
    simp only
    refine ⟨?_, ?_, ?_, ?_, ?_, ?_, ?_⟩ <;> split <;> simp

/-- Witness for claim C10 at concrete operands and weights. -/
theorem compare_clouds_range_witness :
    (Clouds.inRange ⟨0, 1, 2, 3, 4, 1, 0⟩ ∧ Clouds.inRange ⟨9, 1, 0, 3, 5, 0, 1⟩ ∧
      (0 : ℚ) < 1 ∧ (0 : ℚ) < 2) ∧
    (∃ c, Clouds.compare_clouds ⟨0, 1, 2, 3, 4, 1, 0⟩ ⟨9, 1, 0, 3, 5, 0, 1⟩ 1 2 "match" =
        some c ∧ c.inRange ∧ fieldsMatchOr9 ⟨9, 1, 0, 3, 5, 0, 1⟩ c) := by
  refine ⟨⟨?_, ?_, ?_, ?_⟩, ?_⟩
  · exact ⟨⟨by decide, by decide⟩, ⟨by decide, by decide⟩, ⟨by decide, by decide⟩,
      ⟨by decide, by decide⟩, ⟨by decide, by decide⟩, ⟨by decide, by decide⟩,
      by decide, by decide⟩
  · exact ⟨⟨by decide, by decide⟩, ⟨by decide, by decide⟩, ⟨by decide, by decide⟩,
      ⟨by decide, by decide⟩, ⟨by decide, by decide⟩, ⟨by decide, by decide⟩,
      by decide, by decide⟩
  · norm_num
  · norm_num
  · exact (compare_clouds_range ⟨0, 1, 2, 3, 4, 1, 0⟩ ⟨9, 1, 0, 3, 5, 0, 1⟩ 1 2
      (by refine ⟨⟨?_, ?_⟩, ⟨?_, ?_⟩, ⟨?_, ?_⟩, ⟨?_, ?_⟩, ⟨?_, ?_⟩, ⟨?_, ?_⟩, ?_, ?_⟩ <;> decide)
      (by refine ⟨⟨?_, ?_⟩, ⟨?_, ?_⟩, ⟨?_, ?_⟩, ⟨?_, ?_⟩, ⟨?_, ?_⟩, ⟨?_, ?_⟩, ?_, ?_⟩ <;> decide)
      (by norm_num) (by norm_num)).1

/-! Correction filtering (`utils.py`, `filter_corrections`). -/

/-- Loop body of `filter_corrections`: note that `prev_time` is updated to the
current entry on EVERY iteration, whether the entry was kept or dropped. -/
def fcAux (time_window : Int) : List Int → Int → List Int
  | [], _ => []
  | t :: ts, prev =>
    if time_window ≤ t - prev then t :: fcAux time_window ts t
    else fcAux time_window ts t

/-- `filter_corrections` from `utils.py`: the first entry is always kept
(`prev_time is None`), later entries are kept when at least `time_window`
seconds after the previous entry of the input list. -/
def filter_corrections (weather_times : List Int) (time_window : Int) : List Int :=
  match weather_times with
  | [] => []
  | t :: ts => t :: fcAux time_window ts t

/-- The filtering rule asserted by claim C4, written from the spec's words for
comparison (NOT from the source): the reference for the next comparison is the
most recently KEPT entry, so dropped entries are never used as references. -/
def fcKeptRefAux (time_window : Int) : List Int → Int → List Int
  | [], _ => []
  | t :: ts, lastKept =>
    if time_window ≤ t - lastKept then t :: fcKeptRefAux time_window ts t
    else fcKeptRefAux time_window ts lastKept

/-- Top level of the spec-worded kept-reference filter of claim C4. -/
def filterKeptRef (weather_times : List Int) (time_window : Int) : List Int :=
  match weather_times with
  | [] => []
  | t :: ts => t :: fcKeptRefAux time_window ts t

/-- Counterexample to claim C4: on the sorted list `[0, 500, 1000]` with window
600, the code drops 1000 (it is 500 seconds after the DROPPED entry 500),
whereas the claim's kept-reference rule would keep it (it is 1000 seconds after
the most recently kept entry 0). -/
theorem filter_corrections_not_kept_ref :
    filter_corrections [0, 500, 1000] 600 = [0] ∧
    filterKeptRef [0, 500, 1000] 600 = [0, 1000] ∧
    filter_corrections [0, 500, 1000] 600 ≠ filterKeptRef [0, 500, 1000] 600 := by
  refine ⟨by decide, by decide, by decide⟩

theorem fcAux_eq_zip_filter (w : Int) (xs : List Int) :
    ∀ p : Int, fcAux w xs p =
      (((p :: xs).zip xs).filter (fun pc => w ≤ pc.2 - pc.1)).map Prod.snd := by
  induction xs with
  | nil => intro p; rfl
  | cons t ts ih =>
    intro p
    show fcAux w (t :: ts) p =
      (((p, t) :: (t :: ts).zip ts).filter (fun pc => w ≤ pc.2 - pc.1)).map Prod.snd
    by_cases h : w ≤ t - p
    · have heq : fcAux w (t :: ts) p = t :: fcAux w ts t := by
        simp only [fcAux]; rw [if_pos h]
      rw [heq, ih t]
      simp [List.filter_cons, h]
    · have heq : fcAux w (t :: ts) p = fcAux w ts t := by
        simp only [fcAux]; rw [if_neg h]
      rw [heq, ih t]
      simp [List.filter_cons, h]

/-- Claim C4 (amended): `filter_corrections` keeps an entry iff it is the first
entry or its distance to the IMMEDIATELY PRECEDING INPUT entry (kept or
dropped) is at least the window; the output is the first entry followed by
exactly those entries whose gap from their input predecessor is at least the
window.  (The claim's "most recently kept" reference rule is refuted above.) -/
theorem filter_corrections_adjacent_gap (x : Int) (xs : List Int) (w : Int) :
    filter_corrections (x :: xs) w =
      x :: (((x :: xs).zip xs).filter (fun pc => w ≤ pc.2 - pc.1)).map Prod.snd := by
  show x :: fcAux w xs x = _
  rw [fcAux_eq_zip_filter w xs x]

theorem chain_gap_weaken {w p t : Int} {l : List Int} (hpt : p ≤ t)
    (h : List.Chain (fun a b => w ≤ b - a) t l) :
    List.Chain (fun a b => w ≤ b - a) p l := by
  cases l with
  | nil => exact List.Chain.nil
  | cons c l2 =>
    cases h with
    | cons hrel htail => exact List.Chain.cons (by omega) htail

theorem fcAux_chain (w : Int) (ts : List Int) :
    ∀ p : Int, ts.Sorted (· ≤ ·) → (∀ x ∈ ts, p ≤ x) →
      List.Chain (fun a b => w ≤ b - a) p (fcAux w ts p) := by
  induction ts with
  | nil => intro p _ _; exact List.Chain.nil
  | cons t ts ih =>
    intro p hs hp
    have hpt : p ≤ t := hp t (List.mem_cons_self t ts)
    obtain ⟨hts, hs2⟩ := List.sorted_cons.mp hs
    by_cases h : w ≤ t - p
    · have heq : fcAux w (t :: ts) p = t :: fcAux w ts t := by
        simp only [fcAux]; rw [if_pos h]
      rw [heq]
      exact List.Chain.cons h (ih t hs2 hts)
    · have heq : fcAux w (t :: ts) p = fcAux w ts t := by
        simp only [fcAux]; rw [if_neg h]
      rw [heq]
      exact chain_gap_weaken hpt (ih t hs2 hts)

theorem fcAux_of_chain (w : Int) (l : List Int) :
    ∀ p : Int, List.Chain (fun a b => w ≤ b - a) p l → fcAux w l p = l := by
  induction l with
  | nil => intro p _; rfl
  | cons t ts ih =>
    intro p hch
    cases hch with
    | cons hrel htail =>
      have heq : fcAux w (t :: ts) p = t :: fcAux w ts t := by
        simp only [fcAux]; rw [if_pos hrel]
      rw [heq, ih t htail]

/-- Claim C5: on a sorted ascending list with a positive window,
`filter_corrections` is idempotent — applying it to its own output returns
that output unchanged. -/
theorem filter_corrections_idempotent (xs : List Int) (w : Int)
    (hs : xs.Sorted (· ≤ ·)) (hw : 0 < w) :
    filter_corrections (filter_corrections xs w) w = filter_corrections xs w := by
  cases xs with
  | nil => rfl
  | cons x ys =>
    obtain ⟨hys, hs2⟩ := List.sorted_cons.mp hs
    have hch : List.Chain (fun a b => w ≤ b - a) x (fcAux w ys x) :=
      fcAux_chain w ys x hs2 hys
    show filter_corrections (x :: fcAux w ys x) w = x :: fcAux w ys x
    show x :: fcAux w (fcAux w ys x) x = x :: fcAux w ys x
    rw [fcAux_of_chain w (fcAux w ys x) x hch]

/-- Witness for claim C5 on a concrete sorted list. -/
theorem filter_corrections_idempotent_witness :
    (List.Sorted (· ≤ ·) ([0, 700, 800] : List Int) ∧ (0 : Int) < 600) ∧
    filter_corrections (filter_corrections [0, 700, 800] 600) 600 =
      filter_corrections [0, 700, 800] 600 :=
  ⟨⟨by decide, by decide⟩,
    filter_corrections_idempotent [0, 700, 800] 600 (by decide) (by decide)⟩

/-! Timestamp wrap correction (`main.py`, `MIN_SEC`/`MAX_SEC`). -/

/-- `MIN_SEC = 61200` from `main.py` (17:00 UTC). -/
def MIN_SEC : Int := 61200

/-- `MAX_SEC = 86400` from `main.py` (midnight UTC). -/
def MAX_SEC : Int := 86400

/-- The wraparound correction applied inside `extract_weather_data` in
`main.py`: `if MIN_SEC < timestamp < MAX_SEC: timestamp = timestamp - 43200*2`. -/
def shift_timestamp (timestamp : Int) : Int :=
  if MIN_SEC < timestamp ∧ timestamp < MAX_SEC then timestamp - 43200 * 2 else timestamp

/-- Counterexample to claim C6: the left endpoint 61200 is NOT shifted — the
code's comparison `MIN_SEC < timestamp` is strict, while the claim includes
61200 in the shifted interval. -/
theorem shift_timestamp_at_61200 :
    shift_timestamp 61200 = 61200 ∧ shift_timestamp 61200 ≠ 61200 - 86400 := by
  refine ⟨by decide, by decide⟩

/-- Claim C6 (amended): a timestamp is shifted by exactly -86400 seconds iff it
lies in the OPEN interval (61200, 86400) — both endpoints excluded — and all
other timestamps are left unshifted. -/
theorem shift_timestamp_iff (t : Int) :
    (shift_timestamp t = t - 86400 ↔ (61200 < t ∧ t < 86400)) ∧
    (shift_timestamp t = t ↔ ¬(61200 < t ∧ t < 86400)) := by
  unfold shift_timestamp MIN_SEC MAX_SEC
  constructor
  · constructor
    · intro h
      by_contra hc
      rw [if_neg hc] at h
      omega
    · intro h
      rw [if_pos h]
      omega
  · constructor
    · intro h
      by_contra hc
      rw [if_pos hc] at h
      omega
    · intro h
      rw [if_neg h]

/-! Segment "before" lookup (`main.py`, segment-assignment loop). -/

/-- `np.searchsorted(xs, v)` with the default `side="left"` on an ascending
list: the leftmost insertion index, i.e. the length of the longest prefix of
elements strictly below `v`.  The midpoint key is a Python float (`(start +
stop) / 2`), modelled as `ℚ`. -/
def searchsorted_left : List Int → ℚ → Nat
  | [], _ => 0
  | x :: xs, v => if (x : ℚ) < v then searchsorted_left xs v + 1 else 0

/-- Python list indexing `xs[i]`: a negative index addresses from the end of
the list; an out-of-range index is an `IndexError`, modelled as `none`. -/
def pythonGet (xs : List Int) (i : Int) : Option Int :=
  if 0 ≤ i then xs.get? i.toNat
  else if 0 ≤ i + xs.length then xs.get? (i + xs.length).toNat else none

/-- The "before" observation lookup of the segment-assignment loop in
`main.py`: `ind = np.searchsorted(local_timestamps_filtered, part_mid)` then
`timestamp_before = local_timestamps_filtered[ind - 1]`. -/
def timestamp_before (xs : List Int) (part_mid : ℚ) : Option Int :=
  pythonGet xs ((searchsorted_left xs part_mid : Int) - 1)

/-- Counterexample to claim C3: with observations `[10, 20]` and a segment
midpoint 5 preceding them all, the insertion index is 0, no preliminary entry
exists, yet the lookup does NOT fail: Python's `[-1]` wraps around and returns
the LAST observation 20. -/
theorem timestamp_before_wraps :
    searchsorted_left [10, 20] 5 = 0 ∧ timestamp_before [10, 20] 5 = some 20 := by
  refine ⟨by decide, by decide⟩

theorem searchsorted_le_length (xs : List Int) (v : ℚ) :
    searchsorted_left xs v ≤ xs.length := by
  induction xs with
  | nil => simp [searchsorted_left]
  | cons x xs ih =>
    simp only [searchsorted_left, List.length_cons]
    split
    · omega
    · omega

/-- Claim C3 (amended): for a nonempty filtered observation list the "before"
lookup never fails: when the insertion index is 0 Python's negative indexing
silently returns the LAST entry of the list, and for a positive insertion
index it returns the entry at index-1.  There is no `NoPrecedingObservation`
failure in the code. -/
theorem timestamp_before_eq (xs : List Int) (part_mid : ℚ) (hne : xs ≠ []) :
    timestamp_before xs part_mid =
      if searchsorted_left xs part_mid = 0 then xs.getLast?
      else xs.get? (searchsorted_left xs part_mid - 1) := by
  have hlen : 0 < xs.length := List.length_pos.mpr hne
  unfold timestamp_before pythonGet
  by_cases h0 : searchsorted_left xs part_mid = 0
  · rw [if_pos h0, h0]
    have c1 : ¬(0 ≤ ((0 : Nat) : Int) - 1) := by omega
    rw [if_neg c1]
    have c2 : 0 ≤ ((0 : Nat) : Int) - 1 + xs.length := by omega
    rw [if_pos c2]
    have c3 : (((0 : Nat) : Int) - 1 + xs.length).toNat = xs.length - 1 := by omega
    rw [c3]
    exact (List.getLast?_eq_get? xs).symm
  · rw [if_neg h0]
    have hpos : 1 ≤ searchsorted_left xs part_mid := Nat.one_le_iff_ne_zero.mpr h0
    have c1 : 0 ≤ ((searchsorted_left xs part_mid : Nat) : Int) - 1 := by omega
    rw [if_pos c1]
    congr 1
    omega

/-- Witness for the amended claim C3 at a midpoint with positive insertion
index. -/
theorem timestamp_before_eq_witness :
    (([10, 20] : List Int) ≠ []) ∧
    timestamp_before [10, 20] 15 =
      (if searchsorted_left [10, 20] 15 = 0 then ([10, 20] : List Int).getLast?
       else ([10, 20] : List Int).get? (searchsorted_left [10, 20] 15 - 1)) :=
  ⟨by decide, timestamp_before_eq [10, 20] 15 (by decide)⟩

/-! Missing-stop resolution (`main.py`, `get_stop_time`). -/

/-- Modelled from the spec: `nearest` is imported by `main.py` from `utils`
but is absent from the source tree.  Per spec §4.2 step 3 it returns the list
element nearest the target time by absolute time difference, raising
`ValueError` (modelled as `none`) on an empty list. -/
def nearest (xs : List Int) (target : Int) : Option Int :=
  match xs with
  | [] => none
  | x :: rest =>
    match nearest rest target with
    | none => some x
    | some y => if (x - target).natAbs ≤ (y - target).natAbs then some x else some y

/-- `get_stop_time` from `main.py`: try the nearest emergency stop, then the
nearest other alarm (each attempted only when its list is non-empty, with
`ValueError` falling through), else warn and return start + 20 minutes.
An out-of-range `index` is an uncaught `IndexError` (`none`). -/
def get_stop_time (index : Nat)
    (start_time_list emergency_stop_list other_alarms : List Int) : Option Int :=
  match start_time_list.get? index with
  | none => none
  | some s =>
    match (if emergency_stop_list.isEmpty then none else nearest emergency_stop_list s) with
    | some t => some t
    | none =>
      match (if other_alarms.isEmpty then none else nearest other_alarms s) with
      | some t => some t
      | none => some (s + 20 * 60)

/-- Python `list.insert(m, v)`: insert before index `m`, appending when `m`
is at or past the end. -/
def pyInsert (l : List Int) (m : Nat) (v : Int) : List Int :=
  l.take m ++ [v] ++ l.drop m

/-- `insert_missing_stop_times` from `main.py`: for each missing-stop index
`m`, the `m >= len(stop_time_list)` branch resolves the stop as
`auto_stop_time or nearest(emergency_stop_list, start_time_list[m])` — the
short-circuit `or` takes `auto_stop_time` when it is not `None` (a parsed
datetime is always truthy), and there is NO start+1200 fallback and NO
exception handler in this branch; otherwise `get_stop_time` resolves it (in
Python it never returns `None`, so its result is always inserted).  The
mutated `stop_time_list` is threaded through the loop; `none` models an
uncaught exception (`ValueError` from `nearest` on an empty list, or an
`IndexError`). -/
def insert_missing_stop_times (missing_clock_stops : List Nat)
    (stop_time_list start_time_list : List Int) (auto_stop_time : Option Int)
    (emergency_stop_list other_alarms : List Int) : Option (List Int) :=
  match missing_clock_stops with
  | [] => some stop_time_list
  | m :: ms =>
    if stop_time_list.length ≤ m then
      match auto_stop_time with
      | some t =>
        insert_missing_stop_times ms (pyInsert stop_time_list m t) start_time_list
          auto_stop_time emergency_stop_list other_alarms
      | none =>
        match start_time_list.get? m with
        | none => none
        | some s =>
          match nearest emergency_stop_list s with
          | none => none
          | some t =>
            insert_missing_stop_times ms (pyInsert stop_time_list m t) start_time_list
              auto_stop_time emergency_stop_list other_alarms
    else
      match get_stop_time m start_time_list emergency_stop_list other_alarms with
      | none => none
      | some t =>
        insert_missing_stop_times ms (pyInsert stop_time_list m t) start_time_list
          auto_stop_time emergency_stop_list other_alarms

/-- The `get_stop_time` fallback chain itself does end in start plus 20
minutes when no emergency stop and no other alarm is available. -/
theorem get_stop_time_fallback (index : Nat) (starts : List Int) (s : Int)
    (hidx : starts.get? index = some s) :
    get_stop_time index starts [] [] = some (s + 20 * 60) := by
  unfold get_stop_time
  rw [hidx]
  rfl

/-- Claim C7 is violated by the code: for a segment whose missing stop index
falls at or past the end of the stop list (the ordinary case of the last data
part missing its stop), `insert_missing_stop_times` resolves the stop as
`auto_stop_time or nearest(emergency_stop_list, start_time_list[m])` with no
start+1200 fallback and no handler, so with no auto-stop and no alarms
`nearest` on the empty emergency list raises an uncaught `ValueError` and the
run aborts (first conjunct) instead of warning and returning start + 1200.
Only the `m < len(stop_time_list)` branch reaches `get_stop_time`, which does
fall back to start + 20 minutes as the claim describes (second conjunct). -/
theorem insert_missing_stop_times_crash :
    insert_missing_stop_times [0] [] [3600] none [] [] = none ∧
    insert_missing_stop_times [0] [5000] [3600] none [] [] =
      some [3600 + 20 * 60, 5000] := by
  refine ⟨rfl, rfl⟩

/-! Weather classification (`main.py`, `extract_weather_data`). -/

/-- `re.findall(r'\d{7}', code)[0]` when it exists: the earliest run of 7
consecutive digit characters. -/
def find7 : List Char → Option (List Char)
  | [] => none
  | c :: cs =>
    if ((c :: cs).take 7).length = 7 ∧ ((c :: cs).take 7).all isDigitChar
    then some ((c :: cs).take 7)
    else find7 cs

/-- The suffix of the remote pattern after the closing `']'`: `\s*` (greedy,
and disjoint from `\d`) followed by exactly 7 digits, the capture `group(2)`. -/
def wsDigits (s : List Char) : Option (List Char) :=
  if ((s.dropWhile isSpaceChar).take 7).length = 7 ∧
      ((s.dropWhile isSpaceChar).take 7).all isDigitChar
  then some ((s.dropWhile isSpaceChar).take 7) else none

/-- Backtracking search for the closing `']'` of `\[(.*?)]\s*(\d{7})`: the lazy
`.*?` tries the earliest `']'` first and, on failure of the rest of the
pattern, grows over any non-newline character (including that `']'`). -/
def afterBracket : List Char → Option (List Char)
  | [] => none
  | c :: cs =>
    match (if c = ']' then wsDigits cs else none) with
    | some d => some d
    | none => if c = '\n' then none else afterBracket cs

/-- `re.match(r'\[(.*?)]\s*(\d{7})', code, re.I)`: anchored at the start of
the string; yields the captured 7-digit `group(2)` on a match. -/
def remoteMatch : List Char → Option (List Char)
  | '[' :: rest => afterBracket rest
  | _ => none

/-- Python dict assignment `d[k] = v` on an association list: replace the
first binding of `k` in place, else append at the end. -/
def upsert (m : List (Int × Clouds)) (k : Int) (v : Clouds) : List (Int × Clouds) :=
  match m with
  | [] => [(k, v)]
  | (k2, v2) :: rest => if k2 = k then (k, v) :: rest else (k2, v2) :: upsert rest k v

/-- The four categorized maps returned by `extract_weather_data`, in source
order: local, remote, preliminary, post-run. -/
abbrev WeatherMaps :=
  List (Int × Clouds) × List (Int × Clouds) × List (Int × Clouds) × List (Int × Clouds)

/-- Equality of the four-map bundle is decidable; registered explicitly
because default instance search gives up on the four-fold product. -/
instance : DecidableEq WeatherMaps := fun a b => by
  have h : DecidableEq (List (Int × Clouds)) := inferInstance
  exact instDecidableEqProd a b

/-- One iteration of the classification loop of `extract_weather_data` in
`main.py`.  `none` models an uncaught exception: the `IndexError` raised by
the unguarded `local_match[0]` in the pre- and post-run branches when the string
has no 7-digit run (`Clouds.from_string` itself cannot fail there, since the
regex only produces 7-digit captures). -/
def classify_entry (run_start run_end : Int) (acc : WeatherMaps)
    (entry : Int × List Char) : Option WeatherMaps :=
  if shift_timestamp entry.1 < run_start then
    match find7 entry.2 with
    | none => none
    | some d =>
      match Clouds.from_string d with
      | none => none
      | some cl =>
        some (acc.1, acc.2.1, upsert acc.2.2.1 (shift_timestamp entry.1) cl, acc.2.2.2)
  else if run_end < shift_timestamp entry.1 then
    match find7 entry.2 with
    | none => none
    | some d =>
      match Clouds.from_string d with
      | none => none
      | some cl =>
        some (acc.1, acc.2.1, acc.2.2.1, upsert acc.2.2.2 (shift_timestamp entry.1) cl)
  else
    match remoteMatch entry.2 with
    | some d =>
      match Clouds.from_string d with
      | none => none
      | some cl =>
        some (acc.1, upsert acc.2.1 (shift_timestamp entry.1) cl, acc.2.2.1, acc.2.2.2)
    | none =>
      match find7 entry.2 with
      | some d =>
        match Clouds.from_string d with
        | none => none
        | some cl =>
          some (upsert acc.1 (shift_timestamp entry.1) cl, acc.2.1, acc.2.2.1, acc.2.2.2)
      | none => some acc

/-- The classification loop of `extract_weather_data`, folded over the dict
items in insertion order; `none` if any iteration raises. -/
def extract_aux (run_start run_end : Int) :
    List (Int × List Char) → WeatherMaps → Option WeatherMaps
  | [], acc => some acc
  | e :: es, acc =>
    match classify_entry run_start run_end acc e with
    | none => none
    | some acc2 => extract_aux run_start run_end es acc2

/-- `extract_weather_data` from `main.py` (the variant actually used by the
pipeline; the `utils.py` variant is a historical duplicate). -/
def extract_weather_data (weat_code_dict : List (Int × List Char))
    (run_start run_end : Int) : Option WeatherMaps :=
  extract_aux run_start run_end weat_code_dict ([], [], [], [])

/-- Keys of an association-list map. -/
def keysOf (m : List (Int × Clouds)) : List Int := m.map Prod.fst

/-- The classification rules of claim C1, on the shifted timestamp:
preliminary (before run start, 7-digit run present), post-run (after run end,
7-digit run present), remote (in window, bracketed-prefix pattern), local (in
window, 7-digit run). -/
def matchesRule (run_start run_end : Int) (ts : Int) (code : List Char) : Prop :=
  (ts < run_start ∧ (find7 code).isSome) ∨
  (run_end < ts ∧ (find7 code).isSome) ∨
  (run_start ≤ ts ∧ ts ≤ run_end ∧ ((remoteMatch code).isSome ∨ (find7 code).isSome))

/-- Two maps have no key in common. -/
def DisjointKeys (a b : List (Int × Clouds)) : Prop :=
  ∀ k, k ∈ keysOf a → k ∉ keysOf b

/-- The four categorized maps are pairwise key-disjoint. -/
def DisjointMaps (m : WeatherMaps) : Prop :=
  DisjointKeys m.1 m.2.1 ∧ DisjointKeys m.1 m.2.2.1 ∧ DisjointKeys m.1 m.2.2.2 ∧
  DisjointKeys m.2.1 m.2.2.1 ∧ DisjointKeys m.2.1 m.2.2.2 ∧
  DisjointKeys m.2.2.1 m.2.2.2

/-- A key appears in at least one of the four maps. -/
def memSomeMap (k : Int) (m : WeatherMaps) : Prop :=
  k ∈ keysOf m.1 ∨ k ∈ keysOf m.2.1 ∨ k ∈ keysOf m.2.2.1 ∨ k ∈ keysOf m.2.2.2

theorem mem_keysOf_upsert {m : List (Int × Clouds)} {k k2 : Int} {v : Clouds} :
    k2 ∈ keysOf (upsert m k v) ↔ (k2 = k ∨ k2 ∈ keysOf m) := by
  induction m with
  | nil => simp [upsert, keysOf]
  | cons p rest ih =>
    obtain ⟨pk, pv⟩ := p
    by_cases h : pk = k
    · have heq : upsert ((pk, pv) :: rest) k v = (k, v) :: rest := by
        unfold upsert; rw [if_pos h]
      rw [heq]
      subst h
      simp only [keysOf, List.map_cons, List.mem_cons]
      tauto
    · have heq : upsert ((pk, pv) :: rest) k v = (pk, pv) :: upsert rest k v := by
        simp only [upsert]; rw [if_neg h]
      rw [heq]
      simp only [keysOf, List.map_cons, List.mem_cons] at ih ⊢
      rw [ih]
      tauto

theorem find7_shape {s d : List Char} (h : find7 s = some d) :
    d.length = 7 ∧ ∀ c ∈ d, isDigitChar c = true := by
  induction s with
  | nil => exact absurd h (by simp [find7])
  | cons c cs ih =>
    rw [find7] at h
    split at h
    · rename_i hcond
      obtain ⟨h1, h2⟩ := hcond
      cases h
      exact ⟨h1, fun c2 hc2 => by
        have := List.all_eq_true.mp h2 c2 hc2
        exact this⟩
    · exact ih h

theorem wsDigits_shape {s d : List Char} (h : wsDigits s = some d) :
    d.length = 7 ∧ ∀ c ∈ d, isDigitChar c = true := by
  unfold wsDigits at h
  split at h
  · rename_i hcond
    obtain ⟨h1, h2⟩ := hcond
    cases h
    exact ⟨h1, fun c2 hc2 => List.all_eq_true.mp h2 c2 hc2⟩
  · exact absurd h (by simp)

theorem afterBracket_shape {s d : List Char} (h : afterBracket s = some d) :
    d.length = 7 ∧ ∀ c ∈ d, isDigitChar c = true := by
  induction s with
  | nil => exact absurd h (by simp [afterBracket])
  | cons c cs ih =>
    rw [afterBracket] at h
    split at h
    · rename_i d2 heq
      cases h
      split at heq
      · exact wsDigits_shape heq
      · exact absurd heq (by simp)
    · split at h
      · exact absurd h (by simp)
      · exact ih h

theorem remoteMatch_shape {s d : List Char} (h : remoteMatch s = some d) :
    d.length = 7 ∧ ∀ c ∈ d, isDigitChar c = true := by
  cases s with
  | nil => exact absurd h (by simp [remoteMatch])
  | cons c cs =>
    by_cases hc : c = '['
    · subst hc
      exact afterBracket_shape h
    · rw [show remoteMatch (c :: cs) = none from by
        unfold remoteMatch
        split
        · rename_i heq
          exact absurd (by injection heq) hc
        · rfl] at h
      exact absurd h (by simp)

theorem from_string_of_seven {d : List Char} (h7 : d.length = 7)
    (hd : ∀ c ∈ d, isDigitChar c = true) : ∃ cl, Clouds.from_string d = some cl := by
  have := (from_string_isSome_iff d).mpr ⟨h7, hd⟩
  exact Option.isSome_iff_exists.mp this

theorem classify_entry_cases {rs re : Int} {acc out : WeatherMaps} {e : Int × List Char}
    (h : classify_entry rs re acc e = some out) :
    (∃ cl, shift_timestamp e.1 < rs ∧
      out = (acc.1, acc.2.1, upsert acc.2.2.1 (shift_timestamp e.1) cl, acc.2.2.2)) ∨
    (∃ cl, ¬shift_timestamp e.1 < rs ∧ re < shift_timestamp e.1 ∧
      out = (acc.1, acc.2.1, acc.2.2.1, upsert acc.2.2.2 (shift_timestamp e.1) cl)) ∨
    (∃ cl, ¬shift_timestamp e.1 < rs ∧ ¬re < shift_timestamp e.1 ∧
      out = (acc.1, upsert acc.2.1 (shift_timestamp e.1) cl, acc.2.2.1, acc.2.2.2)) ∨
    (∃ cl, ¬shift_timestamp e.1 < rs ∧ ¬re < shift_timestamp e.1 ∧
      out = (upsert acc.1 (shift_timestamp e.1) cl, acc.2.1, acc.2.2.1, acc.2.2.2)) ∨
    (¬shift_timestamp e.1 < rs ∧ ¬re < shift_timestamp e.1 ∧
      remoteMatch e.2 = none ∧ find7 e.2 = none ∧ out = acc) := by
  unfold classify_entry at h
  split at h
  · rename_i h1
    split at h
    · exact absurd h (by simp)
    · split at h
      · exact absurd h (by simp)
      · rename_i d hd cl hcl
        cases h
        exact Or.inl ⟨cl, h1, rfl⟩
  · rename_i h1
    split at h
    · rename_i h2
      split at h
      · exact absurd h (by simp)
      · split at h
        · exact absurd h (by simp)
        · rename_i d hd cl hcl
          cases h
          exact Or.inr (Or.inl ⟨cl, h1, h2, rfl⟩)
    · rename_i h2
      split at h
      · rename_i d hd
        split at h
        · exact absurd h (by simp)
        · rename_i cl hcl
          cases h
          exact Or.inr (Or.inr (Or.inl ⟨cl, h1, h2, rfl⟩))
      · rename_i hrm
        split at h
        · rename_i d hd
          split at h
          · exact absurd h (by simp)
          · rename_i cl hcl
            cases h
            exact Or.inr (Or.inr (Or.inr (Or.inl ⟨cl, h1, h2, rfl⟩)))
        · rename_i hlm
          cases h
          exact Or.inr (Or.inr (Or.inr (Or.inr ⟨h1, h2, hrm, hlm, rfl⟩)))

theorem extract_aux_keys_mono {rs re : Int} {es : List (Int × List Char)} :
    ∀ {acc out : WeatherMaps}, extract_aux rs re es acc = some out →
    ∀ k, memSomeMap k acc → memSomeMap k out := by
  induction es with
  | nil =>
    intro acc out h k hk
    simp only [extract_aux, Option.some.injEq] at h
    rw [← h]
    exact hk
  | cons e es ih =>
    intro acc out h k hk
    simp only [extract_aux] at h
    cases hstep : classify_entry rs re acc e with
    | none => rw [hstep] at h; exact absurd h (by simp)
    | some acc2 =>
      rw [hstep] at h
      refine ih h k ?_
      rcases classify_entry_cases hstep with ⟨cl, _, hout⟩ | ⟨cl, _, _, hout⟩ |
        ⟨cl, _, _, hout⟩ | ⟨cl, _, _, hout⟩ | ⟨_, _, _, _, hout⟩ <;> subst hout <;>
        rcases hk with hk | hk | hk | hk <;>
        simp only [memSomeMap, mem_keysOf_upsert] <;> tauto

theorem upsert_partition_step {a b c d : List (Int × Clouds)} {ts : Int}
    (hd : DisjointMaps (a, b, c, d))
    (hts : ∀ k, memSomeMap k (a, b, c, d) → ts ≠ k) :
    ∀ cl,
      (DisjointMaps (upsert a ts cl, b, c, d) ∧ DisjointMaps (a, upsert b ts cl, c, d) ∧
       DisjointMaps (a, b, upsert c ts cl, d) ∧ DisjointMaps (a, b, c, upsert d ts cl)) ∧
      (∀ m2 : WeatherMaps,
        (m2 = (upsert a ts cl, b, c, d) ∨ m2 = (a, upsert b ts cl, c, d) ∨
         m2 = (a, b, upsert c ts cl, d) ∨ m2 = (a, b, c, upsert d ts cl)) →
        (memSomeMap ts m2 ∧
          ∀ k, memSomeMap k m2 ↔ (k = ts ∨ memSomeMap k (a, b, c, d)))) := by
  intro cl
  obtain ⟨d12, d13, d14, d23, d24, d34⟩ := hd
  have hfr : ∀ k, (k ∈ keysOf a ∨ k ∈ keysOf b ∨ k ∈ keysOf c ∨ k ∈ keysOf d) → ¬ k = ts := by
    intro k hk he
    exact hts k hk he.symm
  constructor
  · refine ⟨⟨?_, ?_, ?_, d23, d24, d34⟩, ⟨?_, d13, d14, ?_, ?_, d34⟩,
      ⟨d12, ?_, d14, ?_, d24, ?_⟩, ⟨d12, d13, ?_, d23, ?_, ?_⟩⟩
    · intro k hk1 hk2
      rcases mem_keysOf_upsert.mp hk1 with rfl | hk1
      · exact hfr k (Or.inr (Or.inl hk2)) rfl
      · exact d12 k hk1 hk2
    · intro k hk1 hk2
      rcases mem_keysOf_upsert.mp hk1 with rfl | hk1
      · exact hfr k (Or.inr (Or.inr (Or.inl hk2))) rfl
      · exact d13 k hk1 hk2
    · intro k hk1 hk2
      rcases mem_keysOf_upsert.mp hk1 with rfl | hk1
      · exact hfr k (Or.inr (Or.inr (Or.inr hk2))) rfl
      · exact d14 k hk1 hk2
    · intro k hk1 hk2
      rcases mem_keysOf_upsert.mp hk2 with rfl | hk2
      · exact hfr k (Or.inl hk1) rfl
      · exact d12 k hk1 hk2
    · intro k hk1 hk2
      rcases mem_keysOf_upsert.mp hk1 with rfl | hk1
      · exact hfr k (Or.inr (Or.inr (Or.inl hk2))) rfl
      · exact d23 k hk1 hk2
    · intro k hk1 hk2
      rcases mem_keysOf_upsert.mp hk1 with rfl | hk1
      · exact hfr k (Or.inr (Or.inr (Or.inr hk2))) rfl
      · exact d24 k hk1 hk2
    · intro k hk1 hk2
      rcases mem_keysOf_upsert.mp hk2 with rfl | hk2
      · exact hfr k (Or.inl hk1) rfl
      · exact d13 k hk1 hk2
    · intro k hk1 hk2
      rcases mem_keysOf_upsert.mp hk2 with rfl | hk2
      · exact hfr k (Or.inr (Or.inl hk1)) rfl
      · exact d23 k hk1 hk2
    · intro k hk1 hk2
      rcases mem_keysOf_upsert.mp hk1 with rfl | hk1
      · exact hfr k (Or.inr (Or.inr (Or.inr hk2))) rfl
      · exact d34 k hk1 hk2
    · intro k hk1 hk2
      rcases mem_keysOf_upsert.mp hk2 with rfl | hk2
      · exact hfr k (Or.inl hk1) rfl
      · exact d14 k hk1 hk2
    · intro k hk1 hk2
      rcases mem_keysOf_upsert.mp hk2 with rfl | hk2
      · exact hfr k (Or.inr (Or.inl hk1)) rfl
      · exact d24 k hk1 hk2
    · intro k hk1 hk2
      rcases mem_keysOf_upsert.mp hk2 with rfl | hk2
      · exact hfr k (Or.inr (Or.inr (Or.inl hk1))) rfl
      · exact d34 k hk1 hk2
  · rintro m2 (rfl | rfl | rfl | rfl) <;>
      refine ⟨?_, fun k => ?_⟩ <;>
      simp only [memSomeMap, mem_keysOf_upsert] <;> tauto

theorem extract_aux_partition {rs re : Int} (es : List (Int × List Char)) :
    ∀ acc out, extract_aux rs re es acc = some out →
    DisjointMaps acc →
    (∀ e ∈ es, ∀ k, memSomeMap k acc → shift_timestamp e.1 ≠ k) →
    (es.map (fun e => shift_timestamp e.1)).Nodup →
    DisjointMaps out ∧
      ∀ e ∈ es, matchesRule rs re (shift_timestamp e.1) e.2 →
        memSomeMap (shift_timestamp e.1) out := by
  induction es with
  | nil =>
    intro acc out h hd _ _
    simp only [extract_aux, Option.some.injEq] at h
    rw [← h]
    exact ⟨hd, by simp⟩
  | cons e es ih =>
    intro acc out h hd hfresh hnd
    simp only [extract_aux] at h
    cases hstep : classify_entry rs re acc e with
    | none => rw [hstep] at h; exact absurd h (by simp)
    | some acc2 =>
      rw [hstep] at h
      have hts_fresh : ∀ k, memSomeMap k acc → shift_timestamp e.1 ≠ k :=
        hfresh e (List.mem_cons_self e es)
      obtain ⟨hhead, htail⟩ := List.nodup_cons.mp hnd
      -- Decompose acc so that the tuple equations from `classify_entry_cases` apply.
      obtain ⟨la, ra, pa, qa⟩ := acc
      have hcases := classify_entry_cases hstep
      have hstep_all := upsert_partition_step ⟨(hd.1 : _), hd.2.1, hd.2.2.1,
        hd.2.2.2.1, hd.2.2.2.2.1, hd.2.2.2.2.2⟩ hts_fresh
      -- Case E (dropped entry) is handled separately; cases A-D share the pattern.
      rcases hcases with ⟨cl, hc1, hout⟩ | ⟨cl, hc1, hc2, hout⟩ |
        ⟨cl, hc1, hc2, hout⟩ | ⟨cl, hc1, hc2, hout⟩ | ⟨hc1, hc2, hrm, hlm, hout⟩
      case _ =>  -- preliminary
        obtain ⟨⟨_, _, hdisj, _⟩, hchar⟩ := hstep_all cl
        have hch := hchar acc2 (by rw [hout]; tauto)
        have hd2 : DisjointMaps acc2 := by rw [hout]; exact hdisj
        have hfresh2 : ∀ e2 ∈ es, ∀ k, memSomeMap k acc2 → shift_timestamp e2.1 ≠ k := by
          intro e2 he2 k hk
          rcases (hch.2 k).mp hk with rfl | hk
          · intro hcontra
            refine hhead ?_
            show shift_timestamp e.1 ∈ List.map (fun x => shift_timestamp x.1) es
            rw [← hcontra]
            exact List.mem_map_of_mem _ he2
          · exact hfresh e2 (List.mem_cons_of_mem e he2) k hk
        obtain ⟨hdout, hcov⟩ := ih acc2 out h hd2 hfresh2 htail
        refine ⟨hdout, ?_⟩
        intro e2 he2 hm
        rcases List.mem_cons.mp he2 with rfl | he2
        · exact extract_aux_keys_mono h _ hch.1
        · exact hcov e2 he2 hm
      case _ =>  -- post-run
        obtain ⟨⟨_, _, _, hdisj⟩, hchar⟩ := hstep_all cl
        have hch := hchar acc2 (by rw [hout]; tauto)
        have hd2 : DisjointMaps acc2 := by rw [hout]; exact hdisj
        have hfresh2 : ∀ e2 ∈ es, ∀ k, memSomeMap k acc2 → shift_timestamp e2.1 ≠ k := by
          intro e2 he2 k hk
          rcases (hch.2 k).mp hk with rfl | hk
          · intro hcontra
            refine hhead ?_
            show shift_timestamp e.1 ∈ List.map (fun x => shift_timestamp x.1) es
            rw [← hcontra]
            exact List.mem_map_of_mem _ he2
          · exact hfresh e2 (List.mem_cons_of_mem e he2) k hk
        obtain ⟨hdout, hcov⟩ := ih acc2 out h hd2 hfresh2 htail
        refine ⟨hdout, ?_⟩
        intro e2 he2 hm
        rcases List.mem_cons.mp he2 with rfl | he2
        · exact extract_aux_keys_mono h _ hch.1
        · exact hcov e2 he2 hm
      case _ =>  -- remote
        obtain ⟨⟨_, hdisj, _, _⟩, hchar⟩ := hstep_all cl
        have hch := hchar acc2 (by rw [hout]; tauto)
        have hd2 : DisjointMaps acc2 := by rw [hout]; exact hdisj
        have hfresh2 : ∀ e2 ∈ es, ∀ k, memSomeMap k acc2 → shift_timestamp e2.1 ≠ k := by
          intro e2 he2 k hk
          rcases (hch.2 k).mp hk with rfl | hk
          · intro hcontra
            refine hhead ?_
            show shift_timestamp e.1 ∈ List.map (fun x => shift_timestamp x.1) es
            rw [← hcontra]
            exact List.mem_map_of_mem _ he2
          · exact hfresh e2 (List.mem_cons_of_mem e he2) k hk
        obtain ⟨hdout, hcov⟩ := ih acc2 out h hd2 hfresh2 htail
        refine ⟨hdout, ?_⟩
        intro e2 he2 hm
        rcases List.mem_cons.mp he2 with rfl | he2
        · exact extract_aux_keys_mono h _ hch.1
        · exact hcov e2 he2 hm
      case _ =>  -- local
        obtain ⟨⟨hdisj, _, _, _⟩, hchar⟩ := hstep_all cl
        have hch := hchar acc2 (by rw [hout]; tauto)
        have hd2 : DisjointMaps acc2 := by rw [hout]; exact hdisj
        have hfresh2 : ∀ e2 ∈ es, ∀ k, memSomeMap k acc2 → shift_timestamp e2.1 ≠ k := by
          intro e2 he2 k hk
          rcases (hch.2 k).mp hk with rfl | hk
          · intro hcontra
            refine hhead ?_
            show shift_timestamp e.1 ∈ List.map (fun x => shift_timestamp x.1) es
            rw [← hcontra]
            exact List.mem_map_of_mem _ he2
          · exact hfresh e2 (List.mem_cons_of_mem e he2) k hk
        obtain ⟨hdout, hcov⟩ := ih acc2 out h hd2 hfresh2 htail
        refine ⟨hdout, ?_⟩
        intro e2 he2 hm
        rcases List.mem_cons.mp he2 with rfl | he2
        · exact extract_aux_keys_mono h _ hch.1
        · exact hcov e2 he2 hm
      case _ =>  -- dropped with a warning: matches no rule
        subst hout
        obtain ⟨hdout, hcov⟩ := ih _ out h hd
          (fun e2 he2 => hfresh e2 (List.mem_cons_of_mem e he2)) htail
        refine ⟨hdout, ?_⟩
        intro e2 he2 hm
        rcases List.mem_cons.mp he2 with rfl | he2
        · exfalso
          rcases hm with ⟨hlt, _⟩ | ⟨hgt, _⟩ | ⟨_, _, hsome⟩
          · exact hc1 hlt
          · exact hc2 hgt
          · rcases hsome with hsome | hsome
            · rw [hrm] at hsome; exact absurd hsome (by simp)
            · rw [hlm] at hsome; exact absurd hsome (by simp)
        · exact hcov e2 he2 hm

/-- Claim C1: on a weather dict with distinct seconds-since-midnight keys (the
domain produced by `convert_to_seconds`), a successful run of the classifier
returns four pairwise key-disjoint maps, and every entry matching one of the
classification rules is placed in at least one — hence, by disjointness, in
exactly one — of the four maps under its shifted timestamp. -/
theorem extract_weather_data_partition (entries : List (Int × List Char))
    (run_start run_end : Int) (out : WeatherMaps)
    (hrange : ∀ e ∈ entries, 0 ≤ e.1 ∧ e.1 < 86400)
    (hnodup : (entries.map Prod.fst).Nodup)
    (hsucc : extract_weather_data entries run_start run_end = some out) :
    DisjointMaps out ∧
      ∀ e ∈ entries, matchesRule run_start run_end (shift_timestamp e.1) e.2 →
        memSomeMap (shift_timestamp e.1) out := by
  have hnd : (entries.map fun e => shift_timestamp e.1).Nodup := by
    have heq : (entries.map fun e => shift_timestamp e.1) =
        (entries.map Prod.fst).map shift_timestamp := by
      rw [List.map_map]
      rfl
    rw [heq]
    refine List.Nodup.map_on ?_ hnodup
    intro x hx y hy hxy
    obtain ⟨ex, hex, hex2⟩ := List.mem_map.mp hx
    obtain ⟨ey, hey, hey2⟩ := List.mem_map.mp hy
    have hbx := hrange ex hex
    have hby := hrange ey hey
    rw [← hex2, ← hey2] at hxy ⊢
    revert hxy
    unfold shift_timestamp MIN_SEC MAX_SEC
    split <;> split <;> omega
  have hd0 : DisjointMaps ([], [], [], []) := by
    refine ⟨?_, ?_, ?_, ?_, ?_, ?_⟩ <;> intro k hk <;> simp [keysOf] at hk
  have hfresh0 : ∀ e ∈ entries, ∀ k, memSomeMap k (([], [], [], []) : WeatherMaps) →
      shift_timestamp e.1 ≠ k := by
    intro e _ k hk
    simp [memSomeMap, keysOf] at hk
  exact extract_aux_partition entries ([], [], [], []) out hsucc hd0 hfresh0 hnd

/-- Witness for claim C1 on a concrete two-entry dict: a pre-run bracketed
entry and an in-window plain 7-digit entry. -/
theorem extract_weather_data_partition_witness :
    ((∀ e ∈ ([(100, ("[br] 1234567").toList), (200, ("7654321").toList)] :
        List (Int × List Char)), 0 ≤ e.1 ∧ e.1 < 86400) ∧
      ((([(100, ("[br] 1234567").toList), (200, ("7654321").toList)] :
        List (Int × List Char)).map Prod.fst).Nodup) ∧
      extract_weather_data [(100, ("[br] 1234567").toList), (200, ("7654321").toList)]
        150 86300 =
        some ([(200, ⟨7, 6, 5, 4, 3, 2, 1⟩)], [], [(100, ⟨1, 2, 3, 4, 5, 6, 7⟩)], [])) ∧
    (DisjointMaps ([(200, ⟨7, 6, 5, 4, 3, 2, 1⟩)], [], [(100, ⟨1, 2, 3, 4, 5, 6, 7⟩)], []) ∧
      ∀ e ∈ ([(100, ("[br] 1234567").toList), (200, ("7654321").toList)] :
        List (Int × List Char)),
        matchesRule 150 86300 (shift_timestamp e.1) e.2 →
          memSomeMap (shift_timestamp e.1)
            ([(200, ⟨7, 6, 5, 4, 3, 2, 1⟩)], [], [(100, ⟨1, 2, 3, 4, 5, 6, 7⟩)], [])) :=
  ⟨⟨by decide, by decide, by decide⟩,
    extract_weather_data_partition _ 150 86300 _ (by decide) (by decide) (by decide)⟩

/-- Claim C2 is violated by the code: a PRE-RUN entry whose string contains no
7-digit run is not dropped with a warning — the unguarded `local_match[0]`
raises an uncaught `IndexError` and classification aborts (`none`).  The same
string INSIDE the run window is dropped with a warning exactly as the claim
describes (second conjunct). -/
theorem extract_weather_data_preliminary_crash :
    extract_weather_data [((100 : Int), ("no code").toList)] 200 300 = none ∧
    extract_weather_data [((250 : Int), ("no code").toList)] 200 300 =
      some ([], [], [], []) := by
  refine ⟨by decide, by decide⟩

/-! Remote-to-local promotion (`main.py`, `insert_remote_timestamps`). -/

/-- Python `min(candidates, key=f)`: the first element attaining the minimal
key value. -/
def argminKey (f : Int → ℚ) : List Int → Option Int
  | [] => none
  | x :: xs =>
    match argminKey f xs with
    | none => some x
    | some y => if f x ≤ f y then some x else some y

theorem argminKey_mem {f : Int → ℚ} : ∀ {xs : List Int} {x : Int},
    argminKey f xs = some x → x ∈ xs := by
  intro xs
  induction xs with
  | nil => intro x h; exact absurd h (by simp [argminKey])
  | cons a as ih =>
    intro x h
    rw [argminKey] at h
    cases hrec : argminKey f as with
    | none =>
      rw [hrec] at h
      simp only [Option.some.injEq] at h
      rw [← h]
      exact List.mem_cons_self a as
    | some y =>
      rw [hrec] at h
      simp only at h
      split at h
      · simp only [Option.some.injEq] at h
        rw [← h]
        exact List.mem_cons_self a as
      · simp only [Option.some.injEq] at h
        rw [← h]
        exact List.mem_cons_of_mem a (ih hrec)

/-- The body of one `while` pass of `insert_remote_timestamps`: scan the
adjacent pairs of the pass-start `new_local` list (the `range` is precomputed,
so entries appended during the pass are not rescanned); for every gap wider
than `max_diff`, pick from the ORIGINAL `remote` list the candidate strictly
inside the gap that is closest to the gap midpoint, append it to the local
accumulator and remove it from `new_remote`.  Python's `list.remove` raises
`ValueError` when the element is absent; the termination proof shows the
selected candidate is always present, where `List.erase` coincides with it. -/
def passAux (remote : List Int) (max_diff : Int) :
    List (Int × Int) → List Int → List Int → Bool → List Int × List Int × Bool
  | [], app, rem, ch => (app, rem, ch)
  | (s, e) :: ps, app, rem, ch =>
    if max_diff < e - s then
      match argminKey (fun x => |(x : ℚ) - ((s : ℚ) + (e : ℚ)) / 2|)
          (remote.filter (fun r => decide (s < r ∧ r < e))) with
      | some c => passAux remote max_diff ps (app ++ [c]) (rem.erase c) true
      | none => passAux remote max_diff ps app rem ch
    else passAux remote max_diff ps app rem ch

/-- One full pass of the `while` loop, starting from a cleared change flag. -/
def onePass (remote : List Int) (max_diff : Int) (new_local new_remote : List Int) :
    List Int × List Int × Bool :=
  passAux remote max_diff (new_local.zip new_local.tail) [] new_remote false

/-- Python `sorted` on a list of integers (ascending). -/
def pySort (l : List Int) : List Int := List.insertionSort (· ≤ ·) l

/-- The `while changes_made` loop of `insert_remote_timestamps`, with an
explicit pass budget: `none` means the budget was exhausted with the loop
still running.  The termination theorem shows `|remote| + 1` passes always
suffice. -/
def mergeLoop (remote : List Int) (max_diff : Int) :
    Nat → List Int → List Int → Option (List Int × List Int)
  | 0, _, _ => none
  | fuel + 1, new_local, new_remote =>
    match onePass remote max_diff new_local new_remote with
    | (app, rem2, true) =>
      mergeLoop remote max_diff fuel (pySort (new_local ++ app)) (pySort rem2)
    | (_, _, false) => some (new_local, new_remote)

/-- `insert_remote_timestamps` from `main.py`, run with the pass budget that
the termination theorem proves sufficient. -/
def insert_remote_timestamps (loc remote : List Int) (max_diff : Int) :
    Option (List Int × List Int) :=
  mergeLoop remote max_diff (remote.length + 1) loc remote

theorem tail_get? {α} (l : List α) (i : Nat) : l.tail.get? i = l.get? (i + 1) := by
  cases l with
  | nil => rfl
  | cons x xs => rfl

theorem zip_get?_parts {α β} : ∀ (l1 : List α) (l2 : List β) (i : Nat) (p : α × β),
    (l1.zip l2).get? i = some p → l1.get? i = some p.1 ∧ l2.get? i = some p.2 := by
  intro l1
  induction l1 with
  | nil => intro l2 i p h; simp [List.zip] at h
  | cons a as ih =>
    intro l2 i p h
    cases l2 with
    | nil => simp [List.zip] at h
    | cons b bs =>
      cases i with
      | zero =>
        simp only [List.zip_cons_cons, List.get?] at h ⊢
        cases h
        exact ⟨rfl, rfl⟩
      | succ n =>
        simp only [List.zip_cons_cons, List.get?] at h ⊢
        exact ih bs n p h

theorem sorted_le_get? {l : List Int} (hl : l.Sorted (· ≤ ·)) {i j : Nat} {a b : Int}
    (hij : i ≤ j) (ha : l.get? i = some a) (hb : l.get? j = some b) : a ≤ b := by
  obtain ⟨hi, ha2⟩ := List.get?_eq_some.mp ha
  obtain ⟨hj, hb2⟩ := List.get?_eq_some.mp hb
  rcases eq_or_lt_of_le hij with rfl | hlt
  · have : a = b := by rw [← ha2, ← hb2]
    omega
  · have := List.pairwise_iff_get.mp hl ⟨i, hi⟩ ⟨j, hj⟩ hlt
    rw [ha2, hb2] at this
    exact this

theorem passAux_spec (remote : List Int) (max_diff : Int) (l : List Int)
    (hl : l.Sorted (· ≤ ·)) :
    ∀ (ps : List (Int × Int)) (app rem : List Int) (ch : Bool)
      (appOut remOut : List Int) (chOut : Bool),
    passAux remote max_diff ps app rem ch = (appOut, remOut, chOut) →
    (∃ k, ps = (l.zip l.tail).drop k) →
    (∀ x ∈ app, ∀ pr ∈ ps, x ≤ pr.1) →
    (∀ x ∈ remote, x ∈ l ∨ x ∈ app ∨ x ∈ rem) →
    (∀ x ∈ remote, x ∈ l ∨ x ∈ appOut ∨ x ∈ remOut) ∧
    appOut.length + remOut.length = app.length + rem.length ∧
    remOut.length ≤ rem.length ∧
    (chOut = true → ch = true ∨ remOut.length < rem.length) ∧
    (chOut = false → appOut = app ∧ remOut = rem ∧ ch = false) := by
  intro ps
  induction ps with
  | nil =>
    intro app rem ch appOut remOut chOut heq _ _ hmem
    simp only [passAux, Prod.mk.injEq] at heq
    obtain ⟨h1, h2, h3⟩ := heq
    subst h1; subst h2; subst h3
    exact ⟨hmem, rfl, le_refl _, fun h => Or.inl h, fun h => ⟨rfl, rfl, h⟩⟩
  | cons pr ps ih =>
    obtain ⟨s, e⟩ := pr
    intro app rem ch appOut remOut chOut heq hps happ hmem
    obtain ⟨k, hk⟩ := hps
    have hps2 : ps = (l.zip l.tail).drop (k + 1) := by
      have : (l.zip l.tail).drop (k + 1) = ((l.zip l.tail).drop k).drop 1 := by
        rw [List.drop_drop]
      rw [this, ← hk]
      rfl
    have hget : (l.zip l.tail).get? k = some (s, e) := by
      have h0 : ((l.zip l.tail).drop k).get? 0 = some (s, e) := by rw [← hk]; rfl
      rw [List.get?_drop] at h0
      simpa using h0
    obtain ⟨hgs, hge0⟩ := zip_get?_parts l l.tail k (s, e) hget
    have hge : l.get? (k + 1) = some e := by rw [← tail_get?]; exact hge0
    rw [passAux] at heq
    by_cases hgap : max_diff < e - s
    · rw [if_pos hgap] at heq
      cases hargmin : argminKey (fun x => |(x : ℚ) - ((s : ℚ) + (e : ℚ)) / 2|)
          (remote.filter (fun r => decide (s < r ∧ r < e))) with
      | none =>
        rw [hargmin] at heq
        exact ih app rem ch appOut remOut chOut heq ⟨k + 1, hps2⟩
          (fun x hx pr2 hpr2 => happ x hx pr2 (List.mem_cons_of_mem _ hpr2)) hmem
      | some c =>
        rw [hargmin] at heq
        have hcf := argminKey_mem hargmin
        have hcparts := List.mem_filter.mp hcf
        have hcr : c ∈ remote := hcparts.1
        have hcse : s < c ∧ c < e := by
          have := hcparts.2
          simpa using this
        -- The candidate is not an element of the pass-start local list.
        have hcl : c ∉ l := by
          intro hclmem
          obtain ⟨j, hj⟩ := List.mem_iff_get?.mp hclmem
          rcases le_or_lt j k with hle | hlt
          · have := sorted_le_get? hl hle hj hgs
            omega
          · have := sorted_le_get? hl (by omega : k + 1 ≤ j) hge hj
            omega
        -- Nor was it appended earlier in this pass.
        have hca : c ∉ app := by
          intro hcamem
          have := happ c hcamem (s, e) (List.mem_cons_self _ _)
          simp only at this
          omega
        have hcrem : c ∈ rem := by
          rcases hmem c hcr with h | h | h
          · exact absurd h hcl
          · exact absurd h hca
          · exact h
        have herase : (rem.erase c).length = rem.length - 1 :=
          List.length_erase_of_mem hcrem
        have hrpos : 0 < rem.length := List.length_pos.mpr (by
          intro hnil; rw [hnil] at hcrem; exact absurd hcrem (by simp))
        have happ2 : ∀ x ∈ app ++ [c], ∀ pr2 ∈ ps, x ≤ pr2.1 := by
          intro x hx pr2 hpr2
          rcases List.mem_append.mp hx with hx | hx
          · exact happ x hx pr2 (List.mem_cons_of_mem _ hpr2)
          · have hxc : x = c := by simpa using hx
            subst hxc
            rw [hps2] at hpr2
            obtain ⟨idx, hidx⟩ := List.mem_iff_get?.mp hpr2
            rw [List.get?_drop] at hidx
            obtain ⟨hp1, _⟩ := zip_get?_parts l l.tail (k + 1 + idx) pr2 hidx
            have := sorted_le_get? hl (by omega : k + 1 ≤ k + 1 + idx) hge hp1
            omega
        have hmem2 : ∀ x ∈ remote, x ∈ l ∨ x ∈ app ++ [c] ∨ x ∈ rem.erase c := by
          intro x hx
          rcases hmem x hx with h | h | h
          · exact Or.inl h
          · exact Or.inr (Or.inl (List.mem_append_left _ h))
          · by_cases hxc : x = c
            · exact Or.inr (Or.inl (List.mem_append_right _ (by simp [hxc])))
            · exact Or.inr (Or.inr ((List.mem_erase_of_ne hxc).mpr h))
        obtain ⟨o1, o2, o3, o4, o5⟩ := ih (app ++ [c]) (rem.erase c) true
          appOut remOut chOut heq ⟨k + 1, hps2⟩ happ2 hmem2
        refine ⟨o1, ?_, ?_, ?_, ?_⟩
        · simp only [List.length_append, List.length_singleton] at o2
          omega
        · omega
        · intro _
          right
          omega
        · intro hfalse
          obtain ⟨_, _, hcontra⟩ := o5 hfalse
          exact absurd hcontra (by simp)
    · rw [if_neg hgap] at heq
      exact ih app rem ch appOut remOut chOut heq ⟨k + 1, hps2⟩
        (fun x hx pr2 hpr2 => happ x hx pr2 (List.mem_cons_of_mem _ hpr2)) hmem

theorem mergeLoop_some (remote : List Int) (max_diff : Int) :
    ∀ (fuel : Nat) (l rem : List Int), rem.length < fuel →
    l.Sorted (· ≤ ·) →
    (∀ x ∈ remote, x ∈ l ∨ x ∈ rem) →
    ∃ lOut remOut, mergeLoop remote max_diff fuel l rem = some (lOut, remOut) ∧
      lOut.length + remOut.length = l.length + rem.length ∧
      remOut.length ≤ rem.length := by
  intro fuel
  induction fuel with
  | zero => intro l rem h; exact absurd h (Nat.not_lt_zero _)
  | succ fuel ih =>
    intro l rem hfuel hl hmem
    rcases hpassdef : onePass remote max_diff l rem with ⟨app, rem2, ch⟩
    have spec := passAux_spec remote max_diff l hl (l.zip l.tail) [] rem false app rem2 ch
      hpassdef ⟨0, rfl⟩ (by intro x hx; exact absurd hx (by simp))
      (by
        intro x hx
        rcases hmem x hx with h | h
        · exact Or.inl h
        · exact Or.inr (Or.inr h))
    obtain ⟨m1, m2, m3, m4, m5⟩ := spec
    cases ch with
    | false =>
      refine ⟨l, rem, ?_, by omega, le_refl _⟩
      simp only [mergeLoop]
      rw [hpassdef]
    | true =>
      have hdec : rem2.length < rem.length := by
        rcases m4 rfl with h | h
        · exact absurd h (by simp)
        · exact h
      have hl2 : (pySort (l ++ app)).Sorted (· ≤ ·) :=
        List.sorted_insertionSort (· ≤ ·) (l ++ app)
      have hperm1 : List.Perm (pySort (l ++ app)) (l ++ app) :=
        List.perm_insertionSort (· ≤ ·) _
      have hperm2 : List.Perm (pySort rem2) rem2 := List.perm_insertionSort (· ≤ ·) _
      have hmem2 : ∀ x ∈ remote, x ∈ pySort (l ++ app) ∨ x ∈ pySort rem2 := by
        intro x hx
        rcases m1 x hx with h | h | h
        · exact Or.inl (hperm1.mem_iff.mpr (List.mem_append_left _ h))
        · exact Or.inl (hperm1.mem_iff.mpr (List.mem_append_right _ h))
        · exact Or.inr (hperm2.mem_iff.mpr h)
      have hlen2 : (pySort rem2).length = rem2.length := hperm2.length_eq
      obtain ⟨lO, rO, heq, hcons, hle⟩ := ih (pySort (l ++ app)) (pySort rem2)
        (by omega) hl2 hmem2
      have hlen1 : (pySort (l ++ app)).length = l.length + app.length := by
        rw [hperm1.length_eq, List.length_append]
      simp only [List.length_nil] at m2
      refine ⟨lO, rO, ?_, by omega, by omega⟩
      simp only [mergeLoop]
      rw [hpassdef]
      exact heq

/-- Claim C9: for sorted local and remote timestamp lists and a positive gap
threshold, the brtax4 promotion loop terminates within a budget of
`|remote| + 1` passes (each changing pass strictly shrinks the remote list):
the result is `some`, every promotion moves one timestamp from remote to
local (lengths are conserved), and at most `|remote|` promotions happen in
total. -/
theorem insert_remote_timestamps_terminates (loc remote : List Int) (max_diff : Int)
    (hloc : loc.Sorted (· ≤ ·)) (hrem : remote.Sorted (· ≤ ·)) (hpos : 0 < max_diff) :
    ∃ lOut remOut, insert_remote_timestamps loc remote max_diff = some (lOut, remOut) ∧
      lOut.length + remOut.length = loc.length + remote.length ∧
      remOut.length ≤ remote.length ∧
      lOut.length = loc.length + (remote.length - remOut.length) := by
  obtain ⟨lO, rO, heq, hcons, hle⟩ := mergeLoop_some remote max_diff (remote.length + 1)
    loc remote (by omega) hloc (fun x hx => Or.inr hx)
  exact ⟨lO, rO, heq, hcons, hle, by omega⟩

/-- Witness for claim C9: two local observations 10000 apart, two remote
candidates in the gap, threshold one hour. -/
theorem insert_remote_timestamps_terminates_witness :
    (List.Sorted (· ≤ ·) ([0, 10000] : List Int) ∧
      List.Sorted (· ≤ ·) ([4000, 5000] : List Int) ∧ (0 : Int) < 3600) ∧
    (∃ lOut remOut, insert_remote_timestamps [0, 10000] [4000, 5000] 3600 =
        some (lOut, remOut) ∧
      lOut.length + remOut.length = ([0, 10000] : List Int).length +
        ([4000, 5000] : List Int).length ∧
      remOut.length ≤ ([4000, 5000] : List Int).length ∧
      lOut.length = ([0, 10000] : List Int).length +
        (([4000, 5000] : List Int).length - remOut.length)) :=
  ⟨⟨by decide, by decide, by decide⟩,
    insert_remote_timestamps_terminates [0, 10000] [4000, 5000] 3600
      (by decide) (by decide) (by decide)⟩

end TaWeather
